import Mathlib

/-!
Verification of the Lyra performance-stat sampling cache
(`Source/LyraGame/Performance/LyraPerformanceStatSubsystem.h`).

The header defines `FSampledStatCache`, a fixed-capacity ring buffer of
`double` samples with query methods (current, last, average, min, max,
iteration), and declares `FLyraPerformanceStatCache`, a registry mapping
stat-type keys to such buffers.  Samples are modelled as rationals
(`ℚ`): every concrete value appearing in the specification's scenarios is
exactly representable and every arithmetic step performed by the code on
those scenarios is exact, so `ℚ` is a faithful model of the `double`
computations the claims are about.  `int32` indices are modelled as `Nat`
where the code keeps them in `[0, capacity)` and as `Int` where the code
does signed arithmetic (`GetLastCachedStat`).
-/

namespace LyraPerf

/-- Samples are C++ `double`; modelled as `ℚ` (see file header). -/
abbrev Stat := ℚ

/-- State of `FSampledStatCache`: the fields `SampleSize`,
`CurrentSampleIndex` and `Samples` of the C++ class. -/
structure FSampledStatCache where
  SampleSize : Nat
  CurrentSampleIndex : Nat
  Samples : List Stat
deriving Repr, DecidableEq

namespace FSampledStatCache

/-- Constructor `FSampledStatCache(const int32 InSampleSize)`:
`check(InSampleSize > 0)` aborts fatally on a non-positive size (modelled
as `none`); otherwise `Samples.Empty(); Samples.AddZeroed(SampleSize)`
leaves `SampleSize` zero entries and `CurrentSampleIndex = 0`. -/
def create (InSampleSize : Int) : Option FSampledStatCache :=
  if 0 < InSampleSize then
    some { SampleSize := InSampleSize.toNat
           CurrentSampleIndex := 0
           Samples := List.replicate InSampleSize.toNat 0 }
  else
    none

/-- Method `RecordSample`: writes `Samples[CurrentSampleIndex] = Sample`,
increments `CurrentSampleIndex`, and wraps it to `0` once it reaches
`Samples.Num()`. -/
def RecordSample (c : FSampledStatCache) (Sample : Stat) : FSampledStatCache :=
  let Samples := c.Samples.set c.CurrentSampleIndex Sample
  let NextIndex := c.CurrentSampleIndex + 1
  { c with
    Samples := Samples
    CurrentSampleIndex := if NextIndex ≥ Samples.length then 0 else NextIndex }

/-- Method `GetCurrentCachedStat`: returns `Samples[CurrentSampleIndex]`. -/
def GetCurrentCachedStat (c : FSampledStatCache) : Stat :=
  c.Samples.getD c.CurrentSampleIndex 0

/-- Method `GetLastCachedStat`: `LastIndex = CurrentSampleIndex - 1` (signed);
if negative it becomes `Samples.Num() - 1`; returns `Samples[LastIndex]`. -/
def GetLastCachedStat (c : FSampledStatCache) : Stat :=
  let LastIndex : Int := (c.CurrentSampleIndex : Int) - 1
  let LastIndex := if LastIndex < 0 then (c.Samples.length : Int) - 1 else LastIndex
  c.Samples.getD LastIndex.toNat 0

/-- Loop body of `ForEachCurrentSample`: visits `Samples[Index]` for
`SampleSize` iterations, incrementing `Index` and resetting it to `0`
when it reaches `SampleSize`.  The returned list is the sequence of
values passed to `Func`, in visiting order. -/
def forEachAux (Samples : List Stat) (SampleSize : Nat) : Nat → Nat → List Stat
  | 0, _ => []
  | k + 1, Index =>
      Samples.getD Index 0 ::
        forEachAux Samples SampleSize k (if Index + 1 = SampleSize then 0 else Index + 1)

/-- Method `ForEachCurrentSample`: the sequence of samples handed to the
visitor, starting at `CurrentSampleIndex` and wrapping around. -/
def ForEachCurrentSample (c : FSampledStatCache) : List Stat :=
  forEachAux c.Samples c.SampleSize c.SampleSize c.CurrentSampleIndex

/-- Method `GetSampleSize`. -/
def GetSampleSize (c : FSampledStatCache) : Nat :=
  c.SampleSize

/-- Method `GetAverage`: folds `Sum += Stat` over `ForEachCurrentSample`
and divides by `SampleSize`. -/
def GetAverage (c : FSampledStatCache) : Stat :=
  (c.ForEachCurrentSample.foldl (fun Sum StatV => Sum + StatV) 0) / (c.SampleSize : ℚ)

/-- Model of `Algo::MinElement`: a pointer to a minimal element of the
range, `none` (null) when the range is empty.  `GetMin` dereferences this
pointer unconditionally, which is defined exactly when it is not null. -/
def MinElement : List Stat → Option Stat
  | [] => none
  | x :: xs =>
      match MinElement xs with
      | none => some x
      | some m => some (min x m)

/-- Model of `Algo::MaxElement`, dually to `MinElement`. -/
def MaxElement : List Stat → Option Stat
  | [] => none
  | x :: xs =>
      match MaxElement xs with
      | none => some x
      | some m => some (max x m)

/-- Method `GetMin`: `*Algo::MinElement(Samples)`.  The value is wrapped in
`Option`; the dereference is defined exactly on `some`. -/
def GetMin (c : FSampledStatCache) : Option Stat :=
  MinElement c.Samples

/-- Method `GetMax`: `*Algo::MaxElement(Samples)`. -/
def GetMax (c : FSampledStatCache) : Option Stat :=
  MaxElement c.Samples

/-- Class invariant: the sample array has exactly `SampleSize` entries and
the write index stays inside it. -/
def Inv (c : FSampledStatCache) : Prop :=
  c.Samples.length = c.SampleSize ∧ c.CurrentSampleIndex < c.SampleSize

instance (c : FSampledStatCache) : Decidable c.Inv :=
  inferInstanceAs (Decidable (c.Samples.length = c.SampleSize ∧
    c.CurrentSampleIndex < c.SampleSize))

/-- Recording a whole list of samples in order, oldest first. -/
def recordAll (c : FSampledStatCache) (vs : List Stat) : FSampledStatCache :=
  vs.foldl RecordSample c

/-- State-passing form of the `const` method `GetCurrentCachedStat`: the
method cannot mutate the object, so the state component is the input. -/
def GetCurrentCachedStatS (c : FSampledStatCache) : Stat × FSampledStatCache :=
  (c.GetCurrentCachedStat, c)

/-- State-passing form of the `const` method `GetLastCachedStat`. -/
def GetLastCachedStatS (c : FSampledStatCache) : Stat × FSampledStatCache :=
  (c.GetLastCachedStat, c)

/-- State-passing form of the `const` method `ForEachCurrentSample`. -/
def ForEachCurrentSampleS (c : FSampledStatCache) : List Stat × FSampledStatCache :=
  (c.ForEachCurrentSample, c)

/-- State-passing form of the `const` method `GetSampleSize`. -/
def GetSampleSizeS (c : FSampledStatCache) : Nat × FSampledStatCache :=
  (c.GetSampleSize, c)

/-- State-passing form of the `const` method `GetAverage`. -/
def GetAverageS (c : FSampledStatCache) : Stat × FSampledStatCache :=
  (c.GetAverage, c)

/-- State-passing form of the `const` method `GetMin`. -/
def GetMinS (c : FSampledStatCache) : Option Stat × FSampledStatCache :=
  (c.GetMin, c)

/-- State-passing form of the `const` method `GetMax`. -/
def GetMaxS (c : FSampledStatCache) : Option Stat × FSampledStatCache :=
  (c.GetMax, c)

end FSampledStatCache

/-- Modelled from the spec: the enum `ELyraDisplayablePerformanceStat` is
declared in `LyraPerformanceStatTypes.h`, which is not among the sources;
the spec treats it as an abstract stat-type key, modelled as `Nat`. -/
abbrev StatKey := Nat

/-- State of `FLyraPerformanceStatCache`: the `PerfStateCache` map from
stat-type key to sampled-stat buffer, modelled as an association list
(`TMap` holds at most one value per key). -/
structure FLyraPerformanceStatCache where
  PerfStateCache : List (StatKey × FSampledStatCache)
deriving Repr, DecidableEq

namespace FLyraPerformanceStatCache

/-- Lookup in the `PerfStateCache` map: first (unique) entry for the key. -/
def findCache (r : FLyraPerformanceStatCache) (k : StatKey) : Option FSampledStatCache :=
  (r.PerfStateCache.find? (fun p => p.1 == k)).map Prod.snd

/-- Whether the registry tracks a buffer for the key. -/
def Tracks (r : FLyraPerformanceStatCache) (k : StatKey) : Bool :=
  (r.findCache k).isSome

/-- Modelled from the spec: the body of
`FLyraPerformanceStatCache::GetCachedStat` lives in the subsystem `.cpp`
file, which is not among the sources.  Per the spec it returns the
tracked buffer's current value, and `0.0` for an untracked key, never
failing. -/
def GetCachedStat (r : FLyraPerformanceStatCache) (k : StatKey) : Stat :=
  match r.findCache k with
  | some b => b.GetCurrentCachedStat
  | none => 0

/-- Modelled from the spec: the body of
`FLyraPerformanceStatCache::GetCachedStatData` lives in the subsystem
`.cpp` file, which is not among the sources.  Per the spec it returns a
pointer to the tracked buffer, and null (`none`) for an untracked key. -/
def GetCachedStatData (r : FLyraPerformanceStatCache) (k : StatKey) :
    Option FSampledStatCache :=
  r.findCache k

/-- State-passing form of the `const` method `GetCachedStat`: the method
cannot mutate the registry, so the state component is the input. -/
def GetCachedStatS (r : FLyraPerformanceStatCache) (k : StatKey) :
    Stat × FLyraPerformanceStatCache :=
  (r.GetCachedStat k, r)

/-- State-passing form of the `const` method `GetCachedStatData`. -/
def GetCachedStatDataS (r : FLyraPerformanceStatCache) (k : StatKey) :
    Option FSampledStatCache × FLyraPerformanceStatCache :=
  (r.GetCachedStatData k, r)

end FLyraPerformanceStatCache

/-! ### Structural lemmas about the ring buffer -/

namespace FSampledStatCache

/-- Unrolled form of the `ForEachCurrentSample` loop: iteration `j` visits
index `(Index₀ + j) mod SampleSize`, as long as the loop starts in bounds. -/
theorem forEachAux_eq_map (s : List Stat) (C : Nat) :
    ∀ (k i : Nat), i < C →
      forEachAux s C k i = (List.range k).map (fun j => s.getD ((i + j) % C) 0) := by
  intro k
  induction k with
  | zero => intro i _; rfl
  | succ k ih =>
      intro i hi
      have hC : 0 < C := Nat.lt_of_le_of_lt (Nat.zero_le i) hi
      have hlt : (if i + 1 = C then 0 else i + 1) < C := by
        by_cases h1 : i + 1 = C
        · rw [if_pos h1]; exact hC
        · rw [if_neg h1]; omega
      have hnext : ∀ j : Nat,
          ((if i + 1 = C then 0 else i + 1) + j) % C = (i + (j + 1)) % C := by
        intro j
        by_cases h1 : i + 1 = C
        · rw [if_pos h1]
          have e : i + (j + 1) = C + j := by omega
          rw [e, Nat.add_mod_left, Nat.zero_add]
        · rw [if_neg h1]
          have e : i + 1 + j = i + (j + 1) := by omega
          rw [e]
      rw [forEachAux, ih _ hlt, List.range_succ_eq_map, List.map_cons, List.map_map]
      congr 1
      · rw [Nat.add_zero, Nat.mod_eq_of_lt hi]
      · apply List.map_congr_left
        intro j _
        simp only [Function.comp_apply, Nat.succ_eq_add_one]
        rw [hnext j]

/-- Traversing a full cycle of the buffer yields the rotation of `Samples`
by the start index. -/
theorem map_mod_eq_rotate (s : List Stat) (i : Nat) (hi : i < s.length) :
    (List.range s.length).map (fun j => s.getD ((i + j) % s.length) 0) = s.rotate i := by
  have hC : 0 < s.length := Nat.lt_of_le_of_lt (Nat.zero_le i) hi
  apply List.ext_getElem
  · simp
  · intro j h1 h2
    simp only [List.getElem_map, List.getElem_range]
    rw [List.getElem_rotate]
    have hm : (i + j) % s.length < s.length := Nat.mod_lt _ hC
    rw [List.getD_eq_getElem s 0 hm]
    congr 1
    rw [Nat.add_comm]

/-- Traversal of a well-formed buffer is the drop/take rotation of its
sample array at the write index. -/
theorem forEach_eq_drop_append_take (c : FSampledStatCache) (h : c.Inv) :
    c.ForEachCurrentSample =
      c.Samples.drop c.CurrentSampleIndex ++ c.Samples.take c.CurrentSampleIndex := by
  obtain ⟨hl, hi⟩ := h
  have hi' : c.CurrentSampleIndex < c.Samples.length := by omega
  rw [ForEachCurrentSample, forEachAux_eq_map _ _ _ _ hi, ← hl,
    map_mod_eq_rotate _ _ hi', List.rotate_eq_drop_append_take (le_of_lt hi')]

/-- Traversal of a well-formed buffer visits exactly `SampleSize` samples. -/
theorem length_forEach (c : FSampledStatCache) (h : c.Inv) :
    c.ForEachCurrentSample.length = c.SampleSize := by
  rw [ForEachCurrentSample, forEachAux_eq_map _ _ _ _ h.2, List.length_map,
    List.length_range]

/-- Characterisation of successful construction. -/
theorem create_eq (n : Int) (c : FSampledStatCache) (h : create n = some c) :
    0 < n ∧ c.SampleSize = n.toNat ∧ c.CurrentSampleIndex = 0 ∧
      c.Samples = List.replicate n.toNat 0 := by
  unfold create at h
  by_cases hn : 0 < n
  · rw [if_pos hn] at h
    obtain rfl := Option.some.inj h
    exact ⟨hn, rfl, rfl, rfl⟩
  · rw [if_neg hn] at h
    exact absurd h (by simp)

/-- Construction establishes the class invariant. -/
theorem Inv_create (n : Int) (c : FSampledStatCache) (h : create n = some c) : c.Inv := by
  obtain ⟨hn, h1, h2, h3⟩ := create_eq n c h
  constructor
  · rw [h3, h1, List.length_replicate]
  · rw [h2, h1]
    omega

/-- Recording preserves the class invariant. -/
theorem Inv_record (c : FSampledStatCache) (v : Stat) (h : c.Inv) :
    (c.RecordSample v).Inv := by
  obtain ⟨hl, hi⟩ := h
  simp only [RecordSample, Inv, List.length_set]
  refine ⟨hl, ?_⟩
  split <;> omega

/-- Recording any sequence preserves the class invariant. -/
theorem Inv_recordAll (c : FSampledStatCache) (vs : List Stat) (h : c.Inv) :
    (recordAll c vs).Inv := by
  induction vs generalizing c with
  | nil => exact h
  | cons v vs ih => exact ih _ (Inv_record c v h)

/-- Recording one sample slides the chronological window left by one and
appends the new sample at its end. -/
theorem forEach_record (c : FSampledStatCache) (v : Stat) (h : c.Inv) :
    (c.RecordSample v).ForEachCurrentSample = c.ForEachCurrentSample.tail ++ [v] := by
  obtain ⟨hl, hi⟩ := h
  have hi' : c.CurrentSampleIndex < c.Samples.length := by omega
  rw [forEach_eq_drop_append_take (c.RecordSample v) (Inv_record c v ⟨hl, hi⟩),
    forEach_eq_drop_append_take c ⟨hl, hi⟩]
  have hSamples : (c.RecordSample v).Samples = c.Samples.set c.CurrentSampleIndex v := rfl
  have hIdx : (c.RecordSample v).CurrentSampleIndex =
      if c.CurrentSampleIndex + 1 ≥ (c.Samples.set c.CurrentSampleIndex v).length then 0
      else c.CurrentSampleIndex + 1 := rfl
  rw [hSamples, hIdx, List.length_set]
  have hset : c.Samples.set c.CurrentSampleIndex v =
      (c.Samples.take c.CurrentSampleIndex ++ [v]) ++ c.Samples.drop (c.CurrentSampleIndex + 1) := by
    rw [List.set_eq_take_cons_drop v hi', List.append_assoc, List.singleton_append]
  have hlen : (c.Samples.take c.CurrentSampleIndex ++ [v]).length =
      c.CurrentSampleIndex + 1 := by
    simp [List.length_take, Nat.min_eq_left (le_of_lt hi')]
  by_cases hcase : c.CurrentSampleIndex + 1 ≥ c.Samples.length
  · have hieq : c.CurrentSampleIndex + 1 = c.Samples.length := by omega
    rw [if_pos hcase]
    have hdropnil : c.Samples.drop (c.CurrentSampleIndex + 1) = [] :=
      List.drop_eq_nil_of_le (by omega)
    simp only [List.drop_zero, List.take_zero, List.append_nil]
    rw [hset, hdropnil, List.append_nil, List.drop_eq_getElem_cons hi', hdropnil]
    simp
  · rw [if_neg hcase, hset, List.drop_left' hlen, List.take_left' hlen,
      List.drop_eq_getElem_cons hi', List.cons_append, List.tail_cons,
      List.append_assoc]

/-- Recording a sequence of samples drops as many entries from the front
of the chronological window as it appends at the back. -/
theorem forEach_recordAll (c : FSampledStatCache) (vs : List Stat) (h : c.Inv) :
    (recordAll c vs).ForEachCurrentSample =
      (c.ForEachCurrentSample ++ vs).drop vs.length := by
  induction vs generalizing c with
  | nil => simp [recordAll]
  | cons v vs ih =>
      have hlen := length_forEach c h
      have hpos : 0 < c.SampleSize := Nat.lt_of_le_of_lt (Nat.zero_le _) h.2
      obtain ⟨x, t, hxt⟩ : ∃ x t, c.ForEachCurrentSample = x :: t := by
        cases hwc : c.ForEachCurrentSample with
        | nil => rw [hwc] at hlen; simp at hlen; omega
        | cons x t => exact ⟨x, t, rfl⟩
      calc (recordAll c (v :: vs)).ForEachCurrentSample
          = (recordAll (c.RecordSample v) vs).ForEachCurrentSample := rfl
        _ = ((c.RecordSample v).ForEachCurrentSample ++ vs).drop vs.length :=
            ih _ (Inv_record c v h)
        _ = ((c.ForEachCurrentSample.tail ++ [v]) ++ vs).drop vs.length := by
            rw [forEach_record c v h]
        _ = (c.ForEachCurrentSample ++ v :: vs).drop (v :: vs).length := by
            rw [hxt]
            simp [List.append_assoc]

/-- Specification of the modelled `Algo::MinElement` on a cons cell: it
returns a member that bounds the range from below. -/
theorem minElement_cons_spec (a : Stat) (l : List Stat) :
    ∃ m, MinElement (a :: l) = some m ∧ m ∈ a :: l ∧ ∀ x ∈ a :: l, m ≤ x := by
  induction l generalizing a with
  | nil => exact ⟨a, rfl, List.mem_cons_self a _, by simp⟩
  | cons b t ih =>
      obtain ⟨m, hm, hmem, hle⟩ := ih b
      refine ⟨min a m, ?_, ?_, ?_⟩
      · have e : MinElement (a :: b :: t) =
            match MinElement (b :: t) with
            | none => some a
            | some m => some (min a m) := rfl
        rw [e, hm]
      · rcases min_choice a m with h | h
        · rw [h]; exact List.mem_cons_self a _
        · rw [h]; exact List.mem_cons_of_mem a hmem
      · intro x hx
        rcases List.mem_cons.mp hx with hx | hx
        · rw [hx]; exact min_le_left a m
        · exact le_trans (min_le_right a m) (hle x hx)

/-- Specification of the modelled `Algo::MinElement` on any non-empty range. -/
theorem minElement_spec (l : List Stat) (hne : l ≠ []) :
    ∃ m, MinElement l = some m ∧ m ∈ l ∧ ∀ x ∈ l, m ≤ x := by
  cases l with
  | nil => exact absurd rfl hne
  | cons a l => exact minElement_cons_spec a l

/-- Specification of the modelled `Algo::MaxElement` on a cons cell: it
returns a member that bounds the range from above. -/
theorem maxElement_cons_spec (a : Stat) (l : List Stat) :
    ∃ m, MaxElement (a :: l) = some m ∧ m ∈ a :: l ∧ ∀ x ∈ a :: l, x ≤ m := by
  induction l generalizing a with
  | nil => exact ⟨a, rfl, List.mem_cons_self a _, by simp⟩
  | cons b t ih =>
      obtain ⟨m, hm, hmem, hle⟩ := ih b
      refine ⟨max a m, ?_, ?_, ?_⟩
      · have e : MaxElement (a :: b :: t) =
            match MaxElement (b :: t) with
            | none => some a
            | some m => some (max a m) := rfl
        rw [e, hm]
      · rcases max_choice a m with h | h
        · rw [h]; exact List.mem_cons_self a _
        · rw [h]; exact List.mem_cons_of_mem a hmem
      · intro x hx
        rcases List.mem_cons.mp hx with hx | hx
        · rw [hx]; exact le_max_left a m
        · exact le_trans (hle x hx) (le_max_right a m)

/-- Specification of the modelled `Algo::MaxElement` on any non-empty range. -/
theorem maxElement_spec (l : List Stat) (hne : l ≠ []) :
    ∃ m, MaxElement l = some m ∧ m ∈ l ∧ ∀ x ∈ l, x ≤ m := by
  cases l with
  | nil => exact absurd rfl hne
  | cons a l => exact maxElement_cons_spec a l

/-- The average computed over the rotated traversal equals the sum of the
raw sample array divided by the sample size. -/
theorem average_eq (c : FSampledStatCache) (h : c.Inv) :
    c.GetAverage = c.Samples.sum / (c.SampleSize : ℚ) := by
  unfold GetAverage
  rw [← List.sum_eq_foldl]
  congr 1
  rw [forEach_eq_drop_append_take c h, List.sum_append, add_comm,
    ← List.sum_append, List.take_append_drop]

/-- A well-formed buffer has a non-empty sample array. -/
theorem samples_ne_nil (c : FSampledStatCache) (h : c.Inv) : c.Samples ≠ [] := by
  intro hnil
  have h1 := h.1
  have h2 := h.2
  rw [hnil] at h1
  simp at h1
  omega

end FSampledStatCache

/-! ### Concrete buffers used to instantiate the claims -/

/-- Buffer of capacity 3 after recording the sequence [1,2,3,4,5] on a
freshly constructed cache (the spec's §8 scenario). -/
def demoBuffer3 : FSampledStatCache :=
  FSampledStatCache.recordAll ⟨3, 0, List.replicate 3 0⟩ [1, 2, 3, 4, 5]

/-- Buffer of capacity 4 after recording [2,4,6,8] on a freshly
constructed cache (the spec's average/min/max scenario). -/
def demoBuffer4 : FSampledStatCache :=
  FSampledStatCache.recordAll ⟨4, 0, List.replicate 4 0⟩ [2, 4, 6, 8]

/-- Registry tracking no stat-type key at all. -/
def emptyRegistry : FLyraPerformanceStatCache := ⟨[]⟩

/-! ### The claims -/

/-- C1: for every capacity C > 0 and every sequence of at least C recorded
samples on a fresh buffer, the buffer holds exactly the last C recorded
values and `ForEachCurrentSample` visits them oldest-to-newest; with
exactly C samples the traversal is the full recorded sequence
(`vs.drop 0 = vs`). -/
theorem claim1_window_after_fill (n : Int) (c : FSampledStatCache) (vs : List Stat)
    (hc : FSampledStatCache.create n = some c) (hfill : n.toNat ≤ vs.length) :
    (FSampledStatCache.recordAll c vs).ForEachCurrentSample =
      vs.drop (vs.length - n.toNat) := by
  obtain ⟨hn, h1, h2, h3⟩ := FSampledStatCache.create_eq n c hc
  have hInv := FSampledStatCache.Inv_create n c hc
  rw [FSampledStatCache.forEach_recordAll c vs hInv]
  have hwc : c.ForEachCurrentSample = List.replicate n.toNat 0 := by
    rw [FSampledStatCache.forEach_eq_drop_append_take c hInv, h2, h3]
    simp
  rw [hwc, List.drop_append_eq_append_drop,
    List.drop_eq_nil_of_le (by rw [List.length_replicate]; exact hfill),
    List.nil_append, List.length_replicate]

/-- Witness for C1: capacity 3, samples [1,2,3,4,5], traversal [3,4,5]. -/
theorem claim1_witness :
    demoBuffer3.ForEachCurrentSample =
      ([1, 2, 3, 4, 5] : List Stat).drop
        (([1, 2, 3, 4, 5] : List Stat).length - (3 : Int).toNat) ∧
    demoBuffer3.ForEachCurrentSample = [3, 4, 5] :=
  ⟨claim1_window_after_fill 3 ⟨3, 0, List.replicate 3 0⟩ [1, 2, 3, 4, 5]
      (by decide) (by decide),
   by decide⟩

/-- C2: `GetCurrentCachedStat` returns `Samples[CurrentSampleIndex]`, the
slot the next `RecordSample` overwrites, which is the oldest value of the
chronological window (its head under `ForEachCurrentSample`). -/
theorem claim2_currentValue_oldest (c : FSampledStatCache) (h : c.Inv) :
    c.GetCurrentCachedStat = c.Samples.getD c.CurrentSampleIndex 0 ∧
    c.GetCurrentCachedStat = c.ForEachCurrentSample.headI := by
  refine ⟨rfl, ?_⟩
  obtain ⟨hl, hi⟩ := h
  have hi' : c.CurrentSampleIndex < c.Samples.length := by omega
  show c.Samples.getD c.CurrentSampleIndex 0 = _
  rw [List.getD_eq_getElem _ _ hi',
    FSampledStatCache.forEach_eq_drop_append_take c ⟨hl, hi⟩,
    List.drop_eq_getElem_cons hi', List.cons_append]
  rfl

/-- Witness for C2: on capacity 3 after [1,2,3,4,5], the current value is
the oldest in-window sample, namely 3. -/
theorem claim2_witness :
    (demoBuffer3.GetCurrentCachedStat =
        demoBuffer3.Samples.getD demoBuffer3.CurrentSampleIndex 0 ∧
      demoBuffer3.GetCurrentCachedStat = demoBuffer3.ForEachCurrentSample.headI) ∧
    demoBuffer3.GetCurrentCachedStat = 3 :=
  ⟨claim2_currentValue_oldest demoBuffer3 (by decide), by decide⟩

/-- C3: `GetLastCachedStat` directly after `RecordSample v` returns `v`;
in general it reads `Samples[(CurrentSampleIndex + SampleSize - 1) mod
SampleSize]`, the most recently written slot. -/
theorem claim3_previousValue_most_recent (c : FSampledStatCache) (v : Stat) (h : c.Inv) :
    (c.RecordSample v).GetLastCachedStat = v ∧
    c.GetLastCachedStat =
      c.Samples.getD
        ((c.CurrentSampleIndex + c.SampleSize - 1) % c.SampleSize) 0 := by
  obtain ⟨hl, hi⟩ := h
  have hi' : c.CurrentSampleIndex < c.Samples.length := by omega
  constructor
  · have hSamples : (c.RecordSample v).Samples =
        c.Samples.set c.CurrentSampleIndex v := rfl
    have hIdx : (c.RecordSample v).CurrentSampleIndex =
        if c.CurrentSampleIndex + 1 ≥ (c.Samples.set c.CurrentSampleIndex v).length
        then 0 else c.CurrentSampleIndex + 1 := rfl
    simp only [FSampledStatCache.GetLastCachedStat, hSamples, hIdx, List.length_set]
    by_cases hcase : c.CurrentSampleIndex + 1 ≥ c.Samples.length
    · rw [if_pos hcase, if_pos (by norm_num)]
      have e : ((c.Samples.length : Int) - 1).toNat = c.CurrentSampleIndex := by omega
      rw [e, List.getD_eq_getElem _ _ (by simpa using hi')]
      exact List.getElem_set_self _
    · rw [if_neg hcase, if_neg (by push_cast; omega)]
      have e : (((c.CurrentSampleIndex + 1 : Nat) : Int) - 1).toNat =
          c.CurrentSampleIndex := by omega
      rw [e, List.getD_eq_getElem _ _ (by simpa using hi')]
      exact List.getElem_set_self _
  · simp only [FSampledStatCache.GetLastCachedStat]
    by_cases h0 : c.CurrentSampleIndex = 0
    · rw [h0, if_pos (by norm_num)]
      have e : ((c.Samples.length : Int) - 1).toNat =
          (0 + c.SampleSize - 1) % c.SampleSize := by
        rw [Nat.zero_add, Nat.mod_eq_of_lt (by omega)]
        omega
      rw [e]
    · rw [if_neg (by omega)]
      have e : (((c.CurrentSampleIndex : Nat) : Int) - 1).toNat =
          (c.CurrentSampleIndex + c.SampleSize - 1) % c.SampleSize := by
        have e2 : c.CurrentSampleIndex + c.SampleSize - 1 =
            c.SampleSize + (c.CurrentSampleIndex - 1) := by omega
        rw [e2, Nat.add_mod_left, Nat.mod_eq_of_lt (by omega)]
        omega
      rw [e]

/-- Witness for C3: recording 7 into the capacity-3 demo buffer makes the
last cached stat 7; on the demo buffer itself the last value is 5. -/
theorem claim3_witness :
    ((demoBuffer3.RecordSample 7).GetLastCachedStat = 7 ∧
      demoBuffer3.GetLastCachedStat =
        demoBuffer3.Samples.getD
          ((demoBuffer3.CurrentSampleIndex + demoBuffer3.SampleSize - 1) %
            demoBuffer3.SampleSize) 0) ∧
    demoBuffer3.GetLastCachedStat = 5 :=
  ⟨claim3_previousValue_most_recent demoBuffer3 7 (by decide), by decide⟩

/-- C4: `GetAverage` is the sum of all `SampleSize` stored slots divided by
`SampleSize`, and `GetMin`/`GetMax` return a stored slot that bounds all
stored slots from below/above. -/
theorem claim4_aggregates (c : FSampledStatCache) (h : c.Inv) :
    c.GetAverage = c.Samples.sum / (c.SampleSize : ℚ) ∧
    (∃ m, c.GetMin = some m ∧ m ∈ c.Samples ∧ ∀ x ∈ c.Samples, m ≤ x) ∧
    (∃ M, c.GetMax = some M ∧ M ∈ c.Samples ∧ ∀ x ∈ c.Samples, x ≤ M) :=
  ⟨FSampledStatCache.average_eq c h,
   FSampledStatCache.minElement_spec _ (FSampledStatCache.samples_ne_nil c h),
   FSampledStatCache.maxElement_spec _ (FSampledStatCache.samples_ne_nil c h)⟩

/-- Witness for C4: capacity 4 after [2,4,6,8] has average 5, min 2, max 8. -/
theorem claim4_witness :
    (demoBuffer4.GetAverage = demoBuffer4.Samples.sum / (demoBuffer4.SampleSize : ℚ) ∧
      (∃ m, demoBuffer4.GetMin = some m ∧ m ∈ demoBuffer4.Samples ∧
        ∀ x ∈ demoBuffer4.Samples, m ≤ x) ∧
      (∃ M, demoBuffer4.GetMax = some M ∧ M ∈ demoBuffer4.Samples ∧
        ∀ x ∈ demoBuffer4.Samples, x ≤ M)) ∧
    demoBuffer4.GetAverage = 5 ∧
    demoBuffer4.GetMin = some 2 ∧
    demoBuffer4.GetMax = some 8 :=
  ⟨claim4_aggregates demoBuffer4 (by decide),
   by
    have h : demoBuffer4.ForEachCurrentSample = [2, 4, 6, 8] := by decide
    have hs : demoBuffer4.SampleSize = 4 := by decide
    unfold FSampledStatCache.GetAverage
    rw [h, hs]
    norm_num,
   by decide, by decide⟩

/-- C5: construction fails exactly for non-positive requested capacity (no
silent clamping); a positive capacity yields `SampleSize` many zero-valued
samples and write index 0. -/
theorem claim5_create_contract (n : Int) :
    (∀ c, FSampledStatCache.create n = some c →
      0 < n ∧ c.SampleSize = n.toNat ∧ c.CurrentSampleIndex = 0 ∧
        c.Samples = List.replicate n.toNat 0) ∧
    (0 < n → FSampledStatCache.create n =
      some ⟨n.toNat, 0, List.replicate n.toNat 0⟩) ∧
    (n ≤ 0 → FSampledStatCache.create n = none) := by
  refine ⟨fun c h => FSampledStatCache.create_eq n c h, fun hn => ?_, fun hn => ?_⟩
  · unfold FSampledStatCache.create
    rw [if_pos hn]
  · unfold FSampledStatCache.create
    rw [if_neg (by omega)]

/-- Witness for C5: the default capacity 125 constructs the zero-filled
buffer; a negative capacity is rejected. -/
theorem claim5_witness :
    FSampledStatCache.create 125 =
      some ⟨(125 : Int).toNat, 0, List.replicate (125 : Int).toNat 0⟩ ∧
    FSampledStatCache.create (-3) = none :=
  ⟨(claim5_create_contract 125).2.1 (by norm_num),
   (claim5_create_contract (-3)).2.2 (by norm_num)⟩

/-- C6: an untracked stat-type key yields 0.0 from `GetCachedStat` and a
null pointer from `GetCachedStatData`, both totally and without creating a
buffer for the key (the registry state after either query is unchanged). -/
theorem claim6_untracked_default (r : FLyraPerformanceStatCache) (k : StatKey)
    (h : r.Tracks k = false) :
    r.GetCachedStat k = 0 ∧ r.GetCachedStatData k = none ∧
    (r.GetCachedStatS k).2 = r ∧ (r.GetCachedStatDataS k).2 = r := by
  have hnone : r.findCache k = none := by
    cases hx : r.findCache k with
    | none => rfl
    | some b =>
        unfold FLyraPerformanceStatCache.Tracks at h
        rw [hx] at h
        simp at h
  refine ⟨?_, hnone, rfl, rfl⟩
  unfold FLyraPerformanceStatCache.GetCachedStat
  rw [hnone]

/-- Witness for C6: the empty registry tracks no key at all. -/
theorem claim6_witness :
    emptyRegistry.GetCachedStat 0 = 0 ∧
    emptyRegistry.GetCachedStatData 0 = none ∧
    (emptyRegistry.GetCachedStatS 0).2 = emptyRegistry ∧
    (emptyRegistry.GetCachedStatDataS 0).2 = emptyRegistry :=
  claim6_untracked_default emptyRegistry 0 (by decide)

/-- C7: the invariants `Samples.length = SampleSize` and
`CurrentSampleIndex < SampleSize` hold after construction and are
preserved by `RecordSample`; recording never changes `SampleSize` or the
sample-array length, and every `const` query leaves the state unchanged. -/
theorem claim7_invariants (n : Int) (c0 c : FSampledStatCache) (v : Stat)
    (h0 : FSampledStatCache.create n = some c0) (h : c.Inv) :
    c0.Inv ∧ (c.RecordSample v).Inv ∧
    (c.RecordSample v).SampleSize = c.SampleSize ∧
    (c.RecordSample v).Samples.length = c.Samples.length ∧
    c.GetCurrentCachedStatS.2 = c ∧ c.GetLastCachedStatS.2 = c ∧
    c.GetAverageS.2 = c ∧ c.GetMinS.2 = c ∧ c.GetMaxS.2 = c ∧
    c.GetSampleSizeS.2 = c ∧ c.ForEachCurrentSampleS.2 = c :=
  ⟨FSampledStatCache.Inv_create n c0 h0, FSampledStatCache.Inv_record c v h, rfl,
   by simp [FSampledStatCache.RecordSample], rfl, rfl, rfl, rfl, rfl, rfl, rfl⟩

/-- Witness for C7 at capacity 3: the fresh buffer and the demo buffer
satisfy and preserve the invariants. -/
theorem claim7_witness :
    (⟨3, 0, List.replicate 3 0⟩ : FSampledStatCache).Inv ∧
    (demoBuffer3.RecordSample 7).Inv ∧
    (demoBuffer3.RecordSample 7).SampleSize = demoBuffer3.SampleSize ∧
    (demoBuffer3.RecordSample 7).Samples.length = demoBuffer3.Samples.length ∧
    demoBuffer3.GetCurrentCachedStatS.2 = demoBuffer3 ∧
    demoBuffer3.GetLastCachedStatS.2 = demoBuffer3 ∧
    demoBuffer3.GetAverageS.2 = demoBuffer3 ∧
    demoBuffer3.GetMinS.2 = demoBuffer3 ∧
    demoBuffer3.GetMaxS.2 = demoBuffer3 ∧
    demoBuffer3.GetSampleSizeS.2 = demoBuffer3 ∧
    demoBuffer3.ForEachCurrentSampleS.2 = demoBuffer3 :=
  claim7_invariants 3 ⟨3, 0, List.replicate 3 0⟩ demoBuffer3 7 (by decide) (by decide)

/-- C8: all queries are read-only and idempotent: in state-passing form
each query leaves the state unchanged, and repeating it without an
intervening `RecordSample` returns the identical result. -/
theorem claim8_queries_idempotent_readonly :
    ∀ (r : FLyraPerformanceStatCache) (k : StatKey) (c : FSampledStatCache),
      (r.GetCachedStatS k).2 = r ∧
      ((r.GetCachedStatS k).2.GetCachedStatS k).1 = (r.GetCachedStatS k).1 ∧
      (r.GetCachedStatDataS k).2 = r ∧
      ((r.GetCachedStatDataS k).2.GetCachedStatDataS k).1 = (r.GetCachedStatDataS k).1 ∧
      c.GetCurrentCachedStatS.2 = c ∧
      c.GetCurrentCachedStatS.2.GetCurrentCachedStatS.1 = c.GetCurrentCachedStatS.1 ∧
      c.GetLastCachedStatS.2 = c ∧
      c.GetLastCachedStatS.2.GetLastCachedStatS.1 = c.GetLastCachedStatS.1 ∧
      c.GetAverageS.2 = c ∧
      c.GetAverageS.2.GetAverageS.1 = c.GetAverageS.1 ∧
      c.GetMinS.2 = c ∧
      c.GetMinS.2.GetMinS.1 = c.GetMinS.1 ∧
      c.GetMaxS.2 = c ∧
      c.GetMaxS.2.GetMaxS.1 = c.GetMaxS.1 ∧
      c.GetSampleSizeS.2 = c ∧
      c.GetSampleSizeS.2.GetSampleSizeS.1 = c.GetSampleSizeS.1 ∧
      c.ForEachCurrentSampleS.2 = c ∧
      c.ForEachCurrentSampleS.2.ForEachCurrentSampleS.1 = c.ForEachCurrentSampleS.1 :=
  fun _r _k _c =>
    ⟨rfl, rfl, rfl, rfl, rfl, rfl, rfl, rfl, rfl, rfl, rfl, rfl, rfl, rfl, rfl, rfl,
     rfl, rfl⟩

/-- C9: `ForEachCurrentSample` visits exactly `SampleSize` samples, the
`j`-th visited one being `Samples[(CurrentSampleIndex + j) mod SampleSize]`
(one wrap-around), and the traversal mutates nothing. -/
theorem claim9_forEach_visits (c : FSampledStatCache) (h : c.Inv) :
    c.ForEachCurrentSample.length = c.SampleSize ∧
    c.ForEachCurrentSample = (List.range c.SampleSize).map
      (fun j => c.Samples.getD ((c.CurrentSampleIndex + j) % c.SampleSize) 0) ∧
    c.ForEachCurrentSampleS.2 = c :=
  ⟨FSampledStatCache.length_forEach c h,
   FSampledStatCache.forEachAux_eq_map c.Samples c.SampleSize c.SampleSize
     c.CurrentSampleIndex h.2,
   rfl⟩

/-- Witness for C9 at the capacity-3 demo buffer. -/
theorem claim9_witness :
    demoBuffer3.ForEachCurrentSample.length = demoBuffer3.SampleSize ∧
    demoBuffer3.ForEachCurrentSample = (List.range demoBuffer3.SampleSize).map
      (fun j => demoBuffer3.Samples.getD
        ((demoBuffer3.CurrentSampleIndex + j) % demoBuffer3.SampleSize) 0) ∧
    demoBuffer3.ForEachCurrentSampleS.2 = demoBuffer3 :=
  claim9_forEach_visits demoBuffer3 (by decide)

/-- C10: on every buffer reachable from construction by recording, the
sample array is non-empty, so `Algo::MinElement` and `Algo::MaxElement`
return non-null pointers and the dereference in `GetMin`/`GetMax` is
always defined. -/
theorem claim10_minmax_defined (n : Int) (c : FSampledStatCache) (vs : List Stat)
    (h : FSampledStatCache.create n = some c) :
    ((FSampledStatCache.recordAll c vs).GetMin).isSome = true ∧
    ((FSampledStatCache.recordAll c vs).GetMax).isSome = true := by
  have hInv := FSampledStatCache.Inv_recordAll c vs (FSampledStatCache.Inv_create n c h)
  have hne := FSampledStatCache.samples_ne_nil _ hInv
  obtain ⟨m, hm, -, -⟩ := FSampledStatCache.minElement_spec _ hne
  obtain ⟨M, hM, -, -⟩ := FSampledStatCache.maxElement_spec _ hne
  constructor
  · show (FSampledStatCache.MinElement _).isSome = true
    rw [hm]
    rfl
  · show (FSampledStatCache.MaxElement _).isSome = true
    rw [hM]
    rfl

/-- Witness for C10 at capacity 3 with samples [1,2,3,4,5]. -/
theorem claim10_witness :
    ((FSampledStatCache.recordAll ⟨3, 0, List.replicate 3 0⟩
        [1, 2, 3, 4, 5]).GetMin).isSome = true ∧
    ((FSampledStatCache.recordAll ⟨3, 0, List.replicate 3 0⟩
        [1, 2, 3, 4, 5]).GetMax).isSome = true :=
  claim10_minmax_defined 3 ⟨3, 0, List.replicate 3 0⟩ [1, 2, 3, 4, 5] (by decide)

end LyraPerf
